import Mathlib

/-!
Verification of the tntorch cross-approximation engine specification.

The repository ships the engine's documentation notebooks; the engine code
itself (TT tensor data structure, maxvol pivot selection, cross-approximation
driver, fiber sampler, Boolean-formula layer) is not part of the source tree,
so those components are modelled here from the specification's own words and
the claims are settled against these models.  Recorded run transcripts from
the notebooks are embedded verbatim where a claim refers to them.
-/

/-- Modelled from the spec: "TT Tensor: an ordered sequence of N cores.  Core
`k` is a 3-dimensional array of shape `(r_{k-1}, n_k, r_k)`, with
`r_0 = r_N = 1` (boundary ranks)."  The third index of core `k` is the grid
index `i_k`; `cores k i` is the matrix slice `Core_k[:, i, :]`. -/
structure TT where
  N : ℕ
  dims : ℕ → ℕ
  ranks : ℕ → ℕ
  cores : (k : ℕ) → ℕ → Matrix (Fin (ranks k)) (Fin (ranks (k + 1))) ℚ
  rank_zero : ranks 0 = 1
  rank_last : ranks N = 1

/-- The sequential matrix product of the first `j` slices
`Core_0[:, i_0, :] * ... * Core_(j-1)[:, i_(j-1), :]`. -/
def TT.prodUpTo (t : TT) (idx : ℕ → ℕ) : (j : ℕ) → Matrix (Fin (t.ranks 0)) (Fin (t.ranks j)) ℚ
  | 0 => 1
  | j + 1 => t.prodUpTo idx j * t.cores j (idx j)

/-- Modelled from the spec: point evaluation "in O(Σ r_{k-1}·n_k·r_k) via
sequential matrix contraction": a running row vector is contracted with one
slice at a time.  The starting vector is the all-ones row over the (trivial,
size-1) boundary rank. -/
def TT.vecUpTo (t : TT) (idx : ℕ → ℕ) : (j : ℕ) → (Fin (t.ranks j) → ℚ)
  | 0 => fun _ => 1
  | j + 1 => Matrix.vecMul (t.vecUpTo idx j) (t.cores j (idx j))

/-- Point evaluation of a TT tensor at a grid-index tuple, by sequential
contraction; the final vector lives over the trivial right boundary rank and
its (unique) entry is read off as a sum. -/
def TT.eval (t : TT) (idx : ℕ → ℕ) : ℚ := ∑ c, t.vecUpTo idx t.N c

/-- The full matrix product of all N slices, read off as the entry of the
resulting 1×1 matrix (both boundary ranks are 1, so the double sum ranges
over a single pair of indices). -/
def TT.matProdEntry (t : TT) (idx : ℕ → ℕ) : ℚ :=
  ∑ c0, ∑ cN, t.prodUpTo idx t.N c0 cN

theorem TT.vecUpTo_eq_sum_prodUpTo (t : TT) (idx : ℕ → ℕ) (j : ℕ) :
    t.vecUpTo idx j = fun c => ∑ c0, t.prodUpTo idx j c0 c := by
  induction j with
  | zero =>
    funext c
    simp [TT.vecUpTo, TT.prodUpTo, Matrix.one_apply]
  | succ j ih =>
    funext c
    simp only [TT.vecUpTo, TT.prodUpTo, ih, Matrix.vecMul, Matrix.dotProduct,
      Matrix.mul_apply]
    rw [Finset.sum_comm]
    exact Finset.sum_congr rfl fun c0 _ => Finset.sum_mul _ _ _

/-- C1: for every TT tensor (whose boundary ranks are 1 by construction) and
every grid-index tuple, point evaluation by sequential contraction equals the
sequential matrix product of the N slices `Core_k[:, i_k, :]`. -/
theorem C1_tt_eval_eq_matrix_product (t : TT) (idx : ℕ → ℕ) :
    t.eval idx = t.matProdEntry idx := by
  unfold TT.eval TT.matProdEntry
  rw [t.vecUpTo_eq_sum_prodUpTo idx t.N]
  exact Finset.sum_comm

/-- Modelled from the spec: "DegenerateMatrixError — Maxvol input is not full
column rank within numerical tolerance". -/
inductive DegenerateMatrixError where
  | degenerate : DegenerateMatrixError
deriving DecidableEq

/-- Terminal states of one cross-approximation run, from the spec's state
machine "SWEEPING → CONVERGED | MAX_ITER_REACHED | FAILED".  The first two
carry the tensor handed back to the caller; `MAX_ITER_REACHED` is an ordinary
constructor, not an exception. -/
inductive Outcome (α : Type) where
  | converged : α → Outcome α
  | maxIterReached : α → Outcome α
  | failed : Outcome α
deriving DecidableEq

/-- A sweep, observed abstractly: sweep number `i` either signals a
`DegenerateMatrixError` from the Maxvol step or returns the tensor after the
sweep together with the after-sweep relative error estimate and the value
norm used by the effectively-zero test. -/
def SweepFn (α : Type) : Type := ℕ → Except DegenerateMatrixError (α × ℚ × ℚ)

/-- Modelled from the spec: the driver's sweep loop.  Arguments: the sweep
function, the tolerance, the current sweep index, the remaining sweep budget,
whether the previous sweep's value norm was zero, and the best tensor so far.
"Declare CONVERGED when this relative error drops below the configured
tolerance or when the value itself is effectively zero across two sweeps.
Declare MAX_ITER_REACHED when the sweep counter hits a configured cap ...
Declare FAILED only on a DegenerateMatrixError from the Maxvol step." -/
def runAux {α : Type} (sw : SweepFn α) (tol : ℚ) : ℕ → ℕ → Bool → α → Outcome α
  | _, 0, _, best => .maxIterReached best
  | i, fuel + 1, prevZero, _ =>
    match sw i with
    | .error _ => .failed
    | .ok (t, eps, nrm) =>
      if eps < tol ∨ (nrm = 0 ∧ prevZero = true) then .converged t
      else runAux sw tol (i + 1) fuel (decide (nrm = 0)) t

/-- A full cross-approximation run: up to `maxIter` sweeps starting from
sweep 0 with the initial tensor. -/
def runCross {α : Type} (sw : SweepFn α) (tol : ℚ) (maxIter : ℕ) (init : α) : Outcome α :=
  runAux sw tol 0 maxIter false init

/-- The tensor held by the driver after `fuel` further successful sweeps
starting at sweep `i` (the "best tensor so far" handed back on a cap). -/
def bestAfter {α : Type} (sw : SweepFn α) : ℕ → ℕ → α → α
  | _, 0, best => best
  | i, fuel + 1, best =>
    match sw i with
    | .ok (t, _, _) => bestAfter sw (i + 1) fuel t
    | .error _ => best

/-- Sweep `i` completes without triggering the convergence test: it neither
errors, nor drops the error estimate below tolerance, nor yields a zero
value norm. -/
def noStopB {α : Type} (sw : SweepFn α) (tol : ℚ) (i : ℕ) : Bool :=
  match sw i with
  | .ok (_, eps, nrm) => !decide (eps < tol) && !decide (nrm = 0)
  | .error _ => false

theorem runAux_maxIter {α : Type} (sw : SweepFn α) (tol : ℚ) :
    ∀ fuel i pz best, (∀ j, j < fuel → noStopB sw tol (i + j) = true) →
      runAux sw tol i fuel pz best = .maxIterReached (bestAfter sw i fuel best) := by
  intro fuel
  induction fuel with
  | zero => intro i pz best _; rfl
  | succ fuel ih =>
    intro i pz best h
    have h0 := h 0 (Nat.succ_pos fuel)
    rw [Nat.add_zero] at h0
    unfold noStopB at h0
    unfold runAux bestAfter
    match hsw : sw i with
    | .error e => rw [hsw] at h0; simp at h0
    | .ok (t, eps, nrm) =>
      rw [hsw] at h0
      simp only [Bool.and_eq_true, Bool.not_eq_true', decide_eq_false_iff_not] at h0
      have hcond : ¬(eps < tol ∨ (nrm = 0 ∧ pz = true)) := by
        rintro (hlt | ⟨hz, _⟩)
        · exact h0.1 hlt
        · exact h0.2 hz
      simp only [hcond, if_false]
      have : decide (nrm = 0) = false := decide_eq_false h0.2
      rw [this]
      exact ih (i + 1) false t (fun j hj => by
        have := h (j + 1) (Nat.succ_lt_succ hj)
        rwa [Nat.add_comm j 1, ← Nat.add_assoc] at this)

theorem runAux_failed_imp {α : Type} (sw : SweepFn α) (tol : ℚ) :
    ∀ fuel i pz best, runAux sw tol i fuel pz best = .failed →
      ∃ j, j < fuel ∧ ∃ e, sw (i + j) = .error e := by
  intro fuel
  induction fuel with
  | zero => intro i pz best h; cases h
  | succ fuel ih =>
    intro i pz best
    unfold runAux
    match hsw : sw i with
    | .error e =>
      intro _
      exact ⟨0, Nat.succ_pos fuel, e, by rwa [Nat.add_zero]⟩
    | .ok (t, eps, nrm) =>
      by_cases hcond : eps < tol ∨ (nrm = 0 ∧ pz = true)
      · simp only [hcond, if_true]
        intro h; cases h
      · simp only [hcond, if_false]
        intro h
        obtain ⟨j, hj, e, he⟩ := ih (i + 1) (decide (nrm = 0)) t h
        exact ⟨j + 1, Nat.succ_lt_succ hj, e, by rwa [Nat.add_assoc, Nat.add_comm 1 j] at he⟩

instance {ε α : Type} [DecidableEq ε] [DecidableEq α] : DecidableEq (Except ε α) := fun a b =>
  match a, b with
  | .ok x, .ok y =>
    if h : x = y then .isTrue (by rw [h]) else .isFalse (fun hc => by cases hc; exact h rfl)
  | .error x, .error y =>
    if h : x = y then .isTrue (by rw [h]) else .isFalse (fun hc => by cases hc; exact h rfl)
  | .ok _, .error _ => .isFalse (fun hc => by cases hc)
  | .error _, .ok _ => .isFalse (fun hc => by cases hc)

/-- Executable determinant over ℚ by Laplace cofactor expansion along
column 0. -/
def detQ : (r : ℕ) → Matrix (Fin r) (Fin r) ℚ → ℚ
  | 0 => fun _ => 1
  | r + 1 => fun M =>
    ∑ i : Fin (r + 1), (-1) ^ (i.val) * M i 0 * detQ r (M.submatrix i.succAbove Fin.succ)

/-- Executable adjugate over ℚ (transpose of the cofactor matrix). -/
def adjQ : (r : ℕ) → Matrix (Fin r) (Fin r) ℚ → Matrix (Fin r) (Fin r) ℚ
  | 0 => fun _ => 1
  | r + 1 => fun M i j =>
    (-1) ^ (j.val + i.val) * detQ r (M.submatrix j.succAbove i.succAbove)

/-- Executable matrix inverse over ℚ: `det⁻¹ • adjugate`. -/
def qInv (r : ℕ) (M : Matrix (Fin r) (Fin r) ℚ) : Matrix (Fin r) (Fin r) ℚ :=
  (detQ r M)⁻¹ • adjQ r M

theorem detQ_eq_det : ∀ (r : ℕ) (M : Matrix (Fin r) (Fin r) ℚ), detQ r M = M.det
  | 0, M => by rw [Matrix.det_isEmpty]; simp [detQ]
  | r + 1, M => by
    rw [Matrix.det_succ_column_zero]
    simp only [detQ]
    exact Finset.sum_congr rfl fun i _ => by rw [detQ_eq_det]

theorem adjQ_eq_adjugate : ∀ (r : ℕ) (M : Matrix (Fin r) (Fin r) ℚ), adjQ r M = M.adjugate
  | 0, _ => Subsingleton.elim _ _
  | r + 1, M => by
    funext i j
    rw [Matrix.adjugate_fin_succ_eq_det_submatrix]
    simp only [adjQ]
    rw [detQ_eq_det]

theorem qInv_eq_inv (r : ℕ) (M : Matrix (Fin r) (Fin r) ℚ) : qInv r M = M⁻¹ := by
  rw [Matrix.inv_def, Ring.inverse_eq_inv]
  unfold qInv
  rw [detQ_eq_det, adjQ_eq_adjugate]

/-- The square submatrix of `A` formed by the listed rows (in order); rows
past the end of the list are zero-padded, which never happens when the list
has length `r`. -/
def subRows {m r : ℕ} (A : Matrix (Fin m) (Fin r) ℚ) (sel : List (Fin m)) :
    Matrix (Fin r) (Fin r) ℚ :=
  fun i j => match sel[(i : ℕ)]? with
  | some row => A row j
  | none => 0

/-- All size-`r` row subsets of an `m`-row matrix, each as an increasing list
of row indices. -/
def rowSubsets (m r : ℕ) : List (List (Fin m)) := (List.finRange m).sublistsLen r

/-- Modelled from the spec: the input is "assumed full column rank", rendered
as: some `r` rows of `A` form a nonsingular `r × r` submatrix. -/
def fullColRankSel {m r : ℕ} (A : Matrix (Fin m) (Fin r) ℚ) : Prop :=
  ∃ l ∈ rowSubsets m r, detQ r (subRows A l) ≠ 0

/-- Modelled from the spec: the coefficient matrix `B = A · (A_selected)⁻¹`
recomputed by the Maxvol iteration. -/
def bmat {m r : ℕ} (A : Matrix (Fin m) (Fin r) ℚ) (sel : List (Fin m)) :
    Matrix (Fin m) (Fin r) ℚ :=
  A * qInv r (subRows A sel)

theorem bmat_eq_mul_inv {m r : ℕ} (A : Matrix (Fin m) (Fin r) ℚ) (sel : List (Fin m)) :
    bmat A sel = A * (subRows A sel)⁻¹ := by
  unfold bmat
  rw [qInv_eq_inv]

/-- The rows currently outside the selected set. -/
def unselRows {m : ℕ} (sel : List (Fin m)) : List (Fin m) :=
  (List.finRange m).filter (fun i => decide (i ∉ sel))

/-- All (row, column) positions of `B` lying in non-selected rows. -/
def offPairs {m : ℕ} (r : ℕ) (sel : List (Fin m)) : List (Fin m × Fin r) :=
  (unselRows sel) ×ˢ (List.finRange r)

/-- Largest absolute value of `B` over the non-selected rows. -/
def maxAbsOff {m r : ℕ} (A : Matrix (Fin m) (Fin r) ℚ) (sel : List (Fin m)) : ℚ :=
  ((offPairs r sel).map (fun p => |bmat A sel p.1 p.2|)).foldr max 0

/-- Modelled from the spec: the Maxvol swap loop.  "Iteratively compute the
matrix `B = A · (A_selected)⁻¹`; locate the entry of maximum absolute value
outside the selected rows; if its magnitude exceeds the growth threshold,
swap that row into the selected set; repeat until no swap improves volume
beyond threshold or an iteration cap is hit."  The Boolean records whether
the loop exited through the threshold guard (`true`) or the cap (`false`). -/
def maxvolLoop {m r : ℕ} (A : Matrix (Fin m) (Fin r) ℚ) (thresh : ℚ) :
    ℕ → List (Fin m) → List (Fin m) × Bool
  | 0, sel => (sel, false)
  | fuel + 1, sel =>
    if maxAbsOff A sel ≤ thresh then (sel, true)
    else
      ((offPairs r sel).find? (fun p => decide (|bmat A sel p.1 p.2| = maxAbsOff A sel))).elim
        (sel, false)
        (fun p => maxvolLoop A thresh fuel (sel.set p.2 p.1))

/-- Modelled from the spec: the Maxvol Pivot Selector.  "Initialize with any
nonsingular `r×r` submatrix"; "signals a `DegenerateMatrixError` when the
input matrix is not full column rank within numerical tolerance."  The
initializer scans the `r`-row subsets for a nonsingular one and errors out
when none exists. -/
def maxvol {m r : ℕ} (A : Matrix (Fin m) (Fin r) ℚ) (thresh : ℚ) (fuel : ℕ) :
    Except DegenerateMatrixError (List (Fin m) × Bool) :=
  match (rowSubsets m r).find? (fun l => decide (detQ r (subRows A l) ≠ 0)) with
  | none => .error .degenerate
  | some l => .ok (maxvolLoop A thresh fuel l)

theorem le_foldr_max (l : List ℚ) (x : ℚ) (hx : x ∈ l) : x ≤ l.foldr max 0 := by
  induction l with
  | nil => cases hx
  | cons a l ih =>
    rcases List.mem_cons.mp hx with h | h
    · exact h ▸ le_max_left _ _
    · exact le_trans (ih h) (le_max_right _ _)

theorem maxvolLoop_guard {m r : ℕ} (A : Matrix (Fin m) (Fin r) ℚ) (thresh : ℚ) :
    ∀ fuel sel selOut, maxvolLoop A thresh fuel sel = (selOut, true) →
      ∀ i : Fin m, i ∉ selOut → ∀ j : Fin r, |bmat A selOut i j| ≤ thresh := by
  intro fuel
  induction fuel with
  | zero =>
    intro sel selOut h
    cases h
  | succ fuel ih =>
    intro sel selOut h
    unfold maxvolLoop at h
    by_cases hg : maxAbsOff A sel ≤ thresh
    · rw [if_pos hg] at h
      have hsel : sel = selOut := congrArg Prod.fst h
      subst hsel
      intro i hi j
      have hiu : i ∈ unselRows sel :=
        List.mem_filter.mpr ⟨List.mem_finRange i, decide_eq_true hi⟩
      have hp : (i, j) ∈ offPairs r sel :=
        List.mem_product.mpr ⟨hiu, List.mem_finRange j⟩
      have hv := List.mem_map_of_mem (fun p : Fin m × Fin r => |bmat A sel p.1 p.2|) hp
      exact le_trans (le_foldr_max _ _ hv) hg
    · rw [if_neg hg] at h
      cases hf : (offPairs r sel).find?
          (fun p => decide (|bmat A sel p.1 p.2| = maxAbsOff A sel)) with
      | none => rw [hf] at h; cases h
      | some p =>
        rw [hf] at h
        exact ih (sel.set p.2 p.1) selOut h

theorem maxvol_error_iff {m r : ℕ} (A : Matrix (Fin m) (Fin r) ℚ) (thresh : ℚ) (fuel : ℕ) :
    maxvol A thresh fuel = .error .degenerate ↔ ¬ fullColRankSel A := by
  unfold maxvol fullColRankSel
  cases hf : (rowSubsets m r).find? (fun l => decide (detQ r (subRows A l) ≠ 0)) with
  | none =>
    refine iff_of_true rfl ?_
    rintro ⟨l, hl, hd⟩
    exact List.find?_eq_none.mp hf l hl (decide_eq_true hd)
  | some l =>
    refine iff_of_false (fun hc => by cases hc) (not_not_intro ?_)
    have hp := List.find?_some hf
    exact ⟨l, List.mem_of_find?_eq_some hf, of_decide_eq_true hp⟩

instance {m r : ℕ} (A : Matrix (Fin m) (Fin r) ℚ) : Decidable (fullColRankSel A) := by
  unfold fullColRankSel
  infer_instance

/-- Row matrix used to exhibit the Maxvol iteration-cap behaviour: two rows
`(2)` and `(1)`, full column rank. -/
def Acex : Matrix (Fin 2) (Fin 1) ℚ := fun i _ => if i = 0 then 2 else 1

/-- Rank-deficient matrix with two identical rows `(1 2)`. -/
def Adeg : Matrix (Fin 2) (Fin 2) ℚ := fun _ j => if j = 0 then 1 else 2

/-- C2 counterexample: on the full-column-rank input `Acex`, a Maxvol run
whose iteration cap preempts the swap loop returns the pivot row `[1]` even
though the non-selected row `0` of `B = A·(A_selected)⁻¹` has absolute value
`2`, above the growth threshold `21/20`: the returned submatrix is not
locally maximum-volume, so the unconditional claim fails. -/
theorem C2_cap_counterexample :
    fullColRankSel Acex ∧
    maxvol Acex (21/20) 0 = .ok ([1], false) ∧
    (0 : Fin 2) ∉ ([1] : List (Fin 2)) ∧
    ¬ (|bmat Acex [1] 0 0| ≤ 21/20) := by
  refine ⟨?_, ?_, ?_, ?_⟩ <;> with_unfolding_all decide

/-- C2 (amended): whenever the Maxvol Pivot Selector terminates through its
swap-threshold guard (rather than through the iteration cap), every entry of
`B = A·(A_selected)⁻¹` in a non-selected row has absolute value at most the
configured growth threshold, i.e. the selected submatrix is locally
maximum-volume. -/
theorem C2_maxvol_locally_maximum_volume {m r : ℕ} (A : Matrix (Fin m) (Fin r) ℚ)
    (thresh : ℚ) (fuel : ℕ) (sel : List (Fin m))
    (h : maxvol A thresh fuel = .ok (sel, true)) :
    ∀ i : Fin m, i ∉ sel → ∀ j : Fin r, |bmat A sel i j| ≤ thresh := by
  unfold maxvol at h
  cases hf : (rowSubsets m r).find? (fun l => decide (detQ r (subRows A l) ≠ 0)) with
  | none => rw [hf] at h; cases h
  | some l =>
    rw [hf] at h
    injection h with h2
    exact maxvolLoop_guard A thresh fuel l sel h2

theorem C2_witness :
    maxvol Acex (21/20) 2 = .ok ([0], true) ∧ |bmat Acex [0] 1 0| ≤ 21/20 :=
  ⟨by with_unfolding_all decide,
   C2_maxvol_locally_maximum_volume Acex (21/20) 2 [0]
     (by with_unfolding_all decide) 1 (by decide) 0⟩

/-- C3: every cross-approximation run ends in exactly one of the terminal
states CONVERGED, MAX_ITER_REACHED or FAILED; it declares CONVERGED as soon
as a sweep's relative error estimate drops below the tolerance or the value
is zero across two sweeps; and when no sweep meets the convergence test the
sweep cap yields MAX_ITER_REACHED, returned as a normal result carrying the
best tensor so far, not raised as an error. -/
theorem C3_terminal_states :
    (∀ (α : Type) (sw : SweepFn α) (tol : ℚ) (maxIter : ℕ) (init : α),
       (∃ t, runCross sw tol maxIter init = .converged t) ∨
       (∃ b, runCross sw tol maxIter init = .maxIterReached b) ∨
       runCross sw tol maxIter init = .failed)
    ∧ (∀ (α : Type) (sw : SweepFn α) (tol : ℚ) (i fuel : ℕ) (pz : Bool) (best t : α)
         (eps nrm : ℚ), sw i = .ok (t, eps, nrm) →
         (eps < tol ∨ (nrm = 0 ∧ pz = true)) → 0 < fuel →
         runAux sw tol i fuel pz best = .converged t)
    ∧ (∀ (α : Type) (sw : SweepFn α) (tol : ℚ) (maxIter : ℕ) (init : α),
         (∀ j, j < maxIter → noStopB sw tol j = true) →
         runCross sw tol maxIter init = .maxIterReached (bestAfter sw 0 maxIter init)) := by
  refine ⟨?_, ?_, ?_⟩
  · intro α sw tol maxIter init
    cases hr : runCross sw tol maxIter init with
    | converged t => exact Or.inl ⟨t, rfl⟩
    | maxIterReached b => exact Or.inr (Or.inl ⟨b, rfl⟩)
    | failed => exact Or.inr (Or.inr rfl)
  · intro α sw tol i fuel pz best t eps nrm hsw hcond hfuel
    cases fuel with
    | zero => exact absurd hfuel (Nat.lt_irrefl 0)
    | succ fuel =>
      unfold runAux
      rw [hsw]
      exact if_pos hcond
  · intro α sw tol maxIter init h
    exact runAux_maxIter sw tol maxIter 0 false init
      (fun j hj => by rw [Nat.zero_add]; exact h j hj)

/-- Sweep trace used by the C3 witness: high error until sweep 5, then a
small error. -/
def swW : SweepFn ℕ := fun i => .ok (i, if i < 5 then 1 else 1/8, 1)

theorem C3_witness :
    runAux swW (1/4) 5 3 false 0 = .converged 5 ∧
    runCross swW (1/4) 2 0 = .maxIterReached 1 := by
  constructor
  · exact C3_terminal_states.2.1 ℕ swW (1/4) 5 3 false 0 5
      (if 5 < 5 then 1 else 1/8) 1 rfl (Or.inl (by with_unfolding_all decide)) (by decide)
  · have hns : ∀ j, j < 2 → noStopB swW (1/4) j = true := by with_unfolding_all decide
    have h := C3_terminal_states.2.2 ℕ swW (1/4) 2 0 hns
    rw [h]
    with_unfolding_all decide

/-- C4: the Maxvol Pivot Selector signals `DegenerateMatrixError` exactly
when its input is not full column rank; it never returns a pivot set for such
input (the error is raised by the initializer, before any swap iteration, so
no retry can occur); the driver reaches FAILED only when some sweep raised a
`DegenerateMatrixError`, and reaches it as soon as a sweep raises one. -/
theorem C4_degenerate_error_iff :
    (∀ (m r : ℕ) (A : Matrix (Fin m) (Fin r) ℚ) (thresh : ℚ) (fuel : ℕ),
       maxvol A thresh fuel = .error .degenerate ↔ ¬ fullColRankSel A)
    ∧ (∀ (m r : ℕ) (A : Matrix (Fin m) (Fin r) ℚ) (thresh : ℚ) (fuel : ℕ)
         (res : List (Fin m) × Bool), ¬ fullColRankSel A → maxvol A thresh fuel ≠ .ok res)
    ∧ (∀ (α : Type) (sw : SweepFn α) (tol : ℚ) (fuel i : ℕ) (pz : Bool) (best : α),
         runAux sw tol i fuel pz best = .failed →
         ∃ j, j < fuel ∧ ∃ e, sw (i + j) = .error e)
    ∧ (∀ (α : Type) (sw : SweepFn α) (tol : ℚ) (fuel i : ℕ) (pz : Bool) (best : α)
         (e : DegenerateMatrixError), sw i = .error e → 0 < fuel →
         runAux sw tol i fuel pz best = .failed) := by
  refine ⟨fun m r A thresh fuel => maxvol_error_iff A thresh fuel, ?_, ?_, ?_⟩
  · intro m r A thresh fuel res hnf hok
    rw [(maxvol_error_iff A thresh fuel).mpr hnf] at hok
    cases hok
  · intro α sw tol fuel i pz best h
    exact runAux_failed_imp sw tol fuel i pz best h
  · intro α sw tol fuel i pz best e hsw hfuel
    cases fuel with
    | zero => exact absurd hfuel (Nat.lt_irrefl 0)
    | succ fuel =>
      unfold runAux
      rw [hsw]

theorem C4_witness :
    maxvol Adeg (21/20) 5 = .error .degenerate ∧
    runAux (fun _ => .error .degenerate : SweepFn ℕ) 1 0 3 false 0 = .failed :=
  ⟨(C4_degenerate_error_iff.1 2 2 Adeg (21/20) 5).mpr (by with_unfolding_all decide),
   C4_degenerate_error_iff.2.2.2 ℕ (fun _ => .error .degenerate) 1 3 0 false 0
     .degenerate rfl (by decide)⟩

/-- Modelled from the spec: "Sample Cache: a mapping from full grid-index
tuple to its function value, deduplicating evaluations", together with the
cumulative evaluation counter. -/
structure Cache where
  entries : List (List ℕ × ℚ)
  counter : ℕ

/-- Value stored in the cache for a grid-index tuple, when present. -/
def Cache.lookup (c : Cache) (p : List ℕ) : Option ℚ :=
  (c.entries.find? (fun e => decide (e.1 = p))).map (fun e => e.2)

/-- Modelled from the spec: the Fiber Sampler "deduplicates against the
Sample Cache before dispatching": the grid points actually sent to the
evaluator are the requested ones, with duplicates removed, minus those
already cached. -/
def toDispatch (c : Cache) (pts : List (List ℕ)) : List (List ℕ) :=
  (pts.dedup).filter (fun p => (c.lookup p).isNone)

/-- Modelled from the spec: one Fiber Sampler batch: dispatch the
deduplicated points, store their values, and increment the cumulative
evaluation counter by the number of dispatched points. -/
def Cache.sample (f : List ℕ → ℚ) (pts : List (List ℕ)) (c : Cache) : Cache :=
  { entries := c.entries ++ (toDispatch c pts).map (fun p => (p, f p)),
    counter := c.counter + (toDispatch c pts).length }

/-- C6: the cumulative evaluation counter is non-decreasing under each batch
and across any sequence of batches (sweeps), and the Fiber Sampler never
dispatches a grid-index tuple already present in the Sample Cache; the
dispatched batch itself contains no duplicates. -/
theorem C6_cache_monotone_no_reeval :
    (∀ (f : List ℕ → ℚ) (pts : List (List ℕ)) (c : Cache),
       c.counter ≤ (Cache.sample f pts c).counter)
    ∧ (∀ (batches : List (List (List ℕ))) (f : List ℕ → ℚ) (c : Cache),
       c.counter ≤ (batches.foldl (fun acc pts => Cache.sample f pts acc) c).counter)
    ∧ (∀ (c : Cache) (pts : List (List ℕ)) (p : List ℕ),
       p ∈ toDispatch c pts → c.lookup p = none)
    ∧ (∀ (c : Cache) (pts : List (List ℕ)), (toDispatch c pts).Nodup) := by
  refine ⟨?_, ?_, ?_, ?_⟩
  · intro f pts c
    exact Nat.le_add_right _ _
  · intro batches
    induction batches with
    | nil => intro f c; exact Nat.le_refl _
    | cons pts batches ih =>
      intro f c
      exact le_trans (Nat.le_add_right _ _) (ih f (Cache.sample f pts c))
  · intro c pts p hp
    have := (List.mem_filter.mp hp).2
    exact Option.isNone_iff_eq_none.mp this
  · intro c pts
    exact (List.nodup_dedup pts).filter _

theorem C6_witness : (Cache.mk [] 0).lookup [1, 2] = none :=
  C6_cache_monotone_no_reeval.2.2.1 (Cache.mk [] 0) [[1, 2]] [1, 2] (by decide)

/-- Per-boundary driver state: the current bond rank and the warnings
accumulated in the Convergence Record. -/
structure BoundaryState where
  rank : ℕ
  warnings : List ℕ
deriving DecidableEq

/-- Modelled from the spec: "Initial rank for all boundaries is 1." -/
def initialRank : ℕ := 1

/-- Modelled from the spec: adaptive rank growth for boundary `k`: "if the
relative error estimate for this boundary exceeds a per-boundary threshold,
`r_k` is increased by a fixed increment for the next sweep, up to a
configured rank cap"; a growth request above `max_rank` caps the rank and
appends a warning for that boundary to the Convergence Record instead of
raising (the function is total; there is no error outcome). -/
def growBoundary (k : ℕ) (err threshold : ℚ) (inc maxRank : ℕ)
    (s : BoundaryState) : BoundaryState :=
  if threshold < err then
    if maxRank < s.rank + inc then { rank := maxRank, warnings := s.warnings ++ [k] }
    else { rank := s.rank + inc, warnings := s.warnings }
  else s

/-- C7: bond ranks start at 1; a boundary's rank changes only when its error
estimate exceeds its threshold, in which case it grows by exactly the
configured increment; it never exceeds the rank cap; and a growth request
above the cap does not abort — the rank is capped and a warning for that
boundary is appended to the record. -/
theorem C7_rank_growth :
    initialRank = 1
    ∧ (∀ (k : ℕ) (err threshold : ℚ) (inc maxRank : ℕ) (s : BoundaryState),
        s.rank ≤ maxRank → (growBoundary k err threshold inc maxRank s).rank ≤ maxRank)
    ∧ (∀ (k : ℕ) (err threshold : ℚ) (inc maxRank : ℕ) (s : BoundaryState),
        ¬ threshold < err → growBoundary k err threshold inc maxRank s = s)
    ∧ (∀ (k : ℕ) (err threshold : ℚ) (inc maxRank : ℕ) (s : BoundaryState),
        threshold < err → ¬ maxRank < s.rank + inc →
        growBoundary k err threshold inc maxRank s =
          { rank := s.rank + inc, warnings := s.warnings })
    ∧ (∀ (k : ℕ) (err threshold : ℚ) (inc maxRank : ℕ) (s : BoundaryState),
        threshold < err → maxRank < s.rank + inc →
        growBoundary k err threshold inc maxRank s =
          { rank := maxRank, warnings := s.warnings ++ [k] }) := by
  refine ⟨rfl, ?_, ?_, ?_, ?_⟩
  · intro k err threshold inc maxRank s hs
    unfold growBoundary
    by_cases hgrow : threshold < err
    · rw [if_pos hgrow]
      by_cases hcap : maxRank < s.rank + inc
      · rw [if_pos hcap]
      · rw [if_neg hcap]
        exact Nat.le_of_not_lt hcap
    · rw [if_neg hgrow]
      exact hs
  · intro k err threshold inc maxRank s hgrow
    unfold growBoundary
    rw [if_neg hgrow]
  · intro k err threshold inc maxRank s hgrow hcap
    unfold growBoundary
    rw [if_pos hgrow, if_neg hcap]
  · intro k err threshold inc maxRank s hgrow hcap
    unfold growBoundary
    rw [if_pos hgrow, if_pos hcap]

theorem C7_witness :
    (growBoundary 3 (1/2) (1/4) 1 10 ⟨1, []⟩).rank ≤ 10 ∧
    growBoundary 3 (1/2) (1/4) 5 3 ⟨1, []⟩ = ⟨3, [3]⟩ :=
  ⟨C7_rank_growth.2.1 3 (1/2) (1/4) 1 10 ⟨1, []⟩ (by decide),
   C7_rank_growth.2.2.2.2 3 (1/2) (1/4) 5 3 ⟨1, []⟩
     (by with_unfolding_all decide) (by decide)⟩

/-- Per-sweep relative error estimates of the recorded Hilbert-tensor
cross-approximation run (src/unnamed/part_000: eps 9.221e-01, 4.867e-03,
4.295e-06, 8.606e-09). -/
def hilbertEps : List ℚ :=
  [9221/10000, 4867/1000000, 4295/1000000000, 8606/1000000000000]

/-- Largest ranks per sweep of the recorded run (1, 4, 7, 10). -/
def hilbertRanks : List ℕ := [1, 4, 7, 10]

/-- "Did 33984 function evaluations" (recorded summary line). -/
def hilbertEvalCount : ℕ := 33984

/-- The tolerance of the recorded run ("converged: eps < 1e-06"). -/
def hilbertTol : ℚ := 1/1000000

/-- The recorded run replayed as a sweep trace for the driver model: sweep
`i` returns the i-th recorded error estimate (and a nonzero value norm). -/
def hilbertSweeps : SweepFn ℕ := fun i => .ok (i, hilbertEps.getD i 0, 1)

/-- Checks that consecutive entries strictly decrease. -/
def strictDecr : List ℚ → Bool
  | [] => true
  | [_] => true
  | a :: b :: l => decide (b < a) && strictDecr (b :: l)

/-- Checks that consecutive entries strictly increase. -/
def strictIncr : List ℕ → Bool
  | [] => true
  | [_] => true
  | a :: b :: l => decide (a < b) && strictIncr (b :: l)

set_option maxRecDepth 4000 in
/-- C9: the recorded cross-approximation of the 5-dimensional Hilbert tensor
(32 points per dimension) with tolerance 1e-6: the per-sweep error estimate
strictly decreases at every sweep, the run takes a single-digit number of
sweeps, performs fewer than 10^5 function evaluations, stays above tolerance
until the final sweep, and — replayed through the driver model with the
default cap of 25 sweeps — terminates in CONVERGED at sweep 3 (while the
recorded largest ranks grow strictly). -/
theorem C9_hilbert_recorded_run :
    strictDecr hilbertEps = true
    ∧ hilbertEps.length ≤ 9
    ∧ hilbertEvalCount < 100000
    ∧ (8606/1000000000000 : ℚ) < hilbertTol
    ∧ (∀ e ∈ hilbertEps.dropLast, hilbertTol ≤ e)
    ∧ runCross hilbertSweeps hilbertTol 25 0 = .converged 3
    ∧ strictIncr hilbertRanks = true := by
  refine ⟨?_, ?_, ?_, ?_, ?_, ?_, ?_⟩ <;> with_unfolding_all decide

/-- An n-variable Boolean-formula tensor: a scalar per binary grid point
(a 2×…×2 tensor, held elementwise). -/
def BoolT (n : ℕ) : Type := (Fin n → Fin 2) → ℚ

/-- Modelled from the logic notebook: the k-th symbol is the indicator
tensor of `x_k = 1`. -/
def symbolT (n : ℕ) (j : Fin n) : BoolT n := fun x => if x j = 1 then 1 else 0

/-- Elementwise conjunction (product of 0/1 indicators). -/
def andT {n : ℕ} (p q : BoolT n) : BoolT n := fun x => p x * q x

/-- Elementwise negation (`1 - p`). -/
def notT {n : ℕ} (p : BoolT n) : BoolT n := fun x => 1 - p x

/-- Elementwise disjunction (`p + q - p·q`). -/
def orT {n : ℕ} (p q : BoolT n) : BoolT n := fun x => p x + q x - p x * q x

/-- Two formula tensors are equivalent when they agree on every entry (an
exact tensor identity). -/
def equivT {n : ℕ} (p q : BoolT n) : Prop := ∀ x, p x = q x

/-- Quantifier tensor "for all": indicator of the all-ones input. -/
def allT (n : ℕ) : BoolT n := fun x => if ∀ j, x j = 1 then 1 else 0

/-- Quantifier tensor "exists": indicator of inputs with some variable 1. -/
def anyT (n : ℕ) : BoolT n := fun x => if ∃ j, x j = 1 then 1 else 0

/-- Quantifier tensor "does not exist": indicator of the all-zeros input. -/
def noneT (n : ℕ) : BoolT n := fun x => if ∀ j, x j = 0 then 1 else 0

/-- Conjunction of the listed symbols. -/
def conjList {n : ℕ} (l : List (Fin n)) : BoolT n :=
  l.foldr (fun j acc => andT (symbolT n j) acc) (fun _ => 1)

/-- Disjunction of the listed symbols. -/
def disjList {n : ℕ} (l : List (Fin n)) : BoolT n :=
  l.foldr (fun j acc => orT (symbolT n j) acc) (fun _ => 0)

/-- Conjunction of all n symbols. -/
def conjAll (n : ℕ) : BoolT n := conjList (List.finRange n)

/-- Disjunction of all n symbols. -/
def disjAll (n : ℕ) : BoolT n := disjList (List.finRange n)

/-- The k-th symbol built as an actual TT tensor: n cores of shape
`(1, 2, 1)` (all bond ranks 1); core `j` holds the slice `[0, 1]` and every
other core the slice `[1, 1]`. -/
def ttSymbol (n j : ℕ) : TT where
  N := n
  dims := fun _ => 2
  ranks := fun _ => 1
  cores := fun k i => fun _ _ => if k = j then (if i = 1 then 1 else 0) else 1
  rank_zero := rfl
  rank_last := rfl

/-- A binary assignment on n variables, as a grid-index tuple. -/
def embedIdx {n : ℕ} (x : Fin n → Fin 2) : ℕ → ℕ :=
  fun k => if h : k < n then (x ⟨k, h⟩ : ℕ) else 0

theorem ttSymbol_vecUpTo (n j : ℕ) (idx : ℕ → ℕ) :
    ∀ (m : ℕ) (c : Fin ((ttSymbol n j).ranks m)),
      (ttSymbol n j).vecUpTo idx m c =
        ∏ k ∈ Finset.range m,
          (if k = j then (if idx k = 1 then (1 : ℚ) else 0) else 1) := by
  intro m
  induction m with
  | zero =>
    intro c
    simp [TT.vecUpTo]
  | succ m ih =>
    intro c
    simp only [TT.vecUpTo, Matrix.vecMul, Matrix.dotProduct]
    rw [Finset.sum_congr rfl (fun b _ => by rw [ih b])]
    simp only [ttSymbol, Fin.sum_univ_one]
    rw [Finset.prod_range_succ]

theorem ttSymbol_eval (n j : ℕ) (hj : j < n) (x : Fin n → Fin 2) :
    (ttSymbol n j).eval (embedIdx x) = symbolT n ⟨j, hj⟩ x := by
  unfold TT.eval
  simp only [ttSymbol_vecUpTo]
  simp only [ttSymbol, Fin.sum_univ_one]
  rw [Finset.prod_ite_eq' (Finset.range n) j
    (fun k => if embedIdx x k = 1 then (1 : ℚ) else 0)]
  rw [if_pos (Finset.mem_range.mpr hj)]
  unfold symbolT embedIdx
  rw [dif_pos hj]
  by_cases hv : x ⟨j, hj⟩ = 1
  · rw [if_pos hv, if_pos (by rw [hv]; rfl)]
  · rw [if_neg hv, if_neg (fun hc : ((x ⟨j, hj⟩ : Fin 2) : ℕ) = 1 => hv (Fin.ext hc))]

theorem conjList_eq {n : ℕ} (l : List (Fin n)) (x : Fin n → Fin 2) :
    conjList l x = if ∀ j ∈ l, x j = 1 then 1 else 0 := by
  induction l with
  | nil => simp [conjList]
  | cons a l ih =>
    have hc : conjList (a :: l) x = andT (symbolT n a) (conjList l) x := rfl
    rw [hc]
    unfold andT symbolT
    rw [ih]
    by_cases h1 : x a = 1
    · by_cases h2 : ∀ j ∈ l, x j = 1
      · rw [if_pos h1, if_pos h2,
          if_pos (show ∀ j ∈ a :: l, x j = 1 from List.forall_mem_cons.mpr ⟨h1, h2⟩)]
        norm_num
      · rw [if_pos h1, if_neg h2,
          if_neg (show ¬ ∀ j ∈ a :: l, x j = 1 from
            fun hc2 => h2 (List.forall_mem_cons.mp hc2).2)]
        norm_num
    · rw [if_neg h1,
        if_neg (show ¬ ∀ j ∈ a :: l, x j = 1 from
          fun hc2 => h1 (List.forall_mem_cons.mp hc2).1)]
      norm_num

theorem disjList_eq {n : ℕ} (l : List (Fin n)) (x : Fin n → Fin 2) :
    disjList l x = if ∃ j ∈ l, x j = 1 then 1 else 0 := by
  induction l with
  | nil => simp [disjList]
  | cons a l ih =>
    have hc : disjList (a :: l) x = orT (symbolT n a) (disjList l) x := rfl
    rw [hc]
    unfold orT symbolT
    rw [ih]
    by_cases h1 : x a = 1
    · by_cases h2 : ∃ j ∈ l, x j = 1
      · rw [if_pos h1, if_pos h2,
          if_pos (show ∃ j ∈ a :: l, x j = 1 from ⟨a, List.mem_cons_self a l, h1⟩)]
        norm_num
      · rw [if_pos h1, if_neg h2,
          if_pos (show ∃ j ∈ a :: l, x j = 1 from ⟨a, List.mem_cons_self a l, h1⟩)]
        norm_num
    · by_cases h2 : ∃ j ∈ l, x j = 1
      · obtain ⟨j, hjl, hj1⟩ := h2
        rw [if_neg h1, if_pos (show ∃ j ∈ l, x j = 1 from ⟨j, hjl, hj1⟩),
          if_pos (show ∃ j ∈ a :: l, x j = 1 from ⟨j, List.mem_cons_of_mem a hjl, hj1⟩)]
        norm_num
      · rw [if_neg h1, if_neg h2,
          if_neg (show ¬ ∃ j ∈ a :: l, x j = 1 from ?_)]
        · norm_num
        · rintro ⟨j, hjm, hj1⟩
          rcases List.mem_cons.mp hjm with rfl | hjl
          · exact h1 hj1
          · exact h2 ⟨j, hjl, hj1⟩

/-- C10: the Boolean-formula layer respects classical propositional algebra
as exact tensor identities: each symbol is a TT tensor with all bond ranks 1
whose evaluation is the indicator of its variable; De Morgan's law
`p ∧ q ≡ ¬(¬p ∨ ¬q)` holds for all formula tensors; and the quantifier
tensors satisfy `all(n) ≡ ⋀ symbols`, `any(n) ≡ ⋁ symbols`, and
`none(n) ≡ ¬ any(n)`. -/
theorem C10_boolean_layer :
    (∀ n j k : ℕ, (ttSymbol n j).ranks k = 1)
    ∧ (∀ (n j : ℕ) (hj : j < n) (x : Fin n → Fin 2),
        (ttSymbol n j).eval (embedIdx x) = symbolT n ⟨j, hj⟩ x)
    ∧ (∀ (n : ℕ) (p q : BoolT n), equivT (andT p q) (notT (orT (notT p) (notT q))))
    ∧ (∀ n : ℕ, equivT (allT n) (conjAll n))
    ∧ (∀ n : ℕ, equivT (anyT n) (disjAll n))
    ∧ (∀ n : ℕ, equivT (noneT n) (notT (anyT n))) := by
  refine ⟨fun n j k => rfl, ttSymbol_eval, ?_, ?_, ?_, ?_⟩
  · intro n p q x
    unfold andT notT orT
    ring
  · intro n x
    unfold allT conjAll
    rw [conjList_eq]
    have : (∀ j ∈ List.finRange n, x j = 1) ↔ ∀ j, x j = 1 := by
      simp [List.mem_finRange]
    exact (if_congr this rfl rfl).symm
  · intro n x
    unfold anyT disjAll
    rw [disjList_eq]
    have : (∃ j ∈ List.finRange n, x j = 1) ↔ ∃ j, x j = 1 := by
      simp [List.mem_finRange]
    exact (if_congr this rfl rfl).symm
  · intro n x
    unfold noneT notT anyT
    by_cases h : ∃ j, x j = 1
    · obtain ⟨j, hj⟩ := h
      rw [if_neg (fun hall : ∀ k : Fin n, x k = 0 => by
            rw [hall j] at hj
            exact absurd hj (by decide)),
        if_pos ⟨j, hj⟩]
      norm_num
    · have hz : ∀ k : Fin n, x k = 0 := by
        intro k
        have hv : ∀ v : Fin 2, v ≠ 1 → v = 0 := by decide
        exact hv (x k) (fun hc => h ⟨k, hc⟩)
      rw [if_pos hz, if_neg h]
      norm_num

theorem C10_witness :
    (ttSymbol 3 1).ranks 2 = 1 ∧
    (ttSymbol 3 1).eval (embedIdx (fun _ => 1 : Fin 3 → Fin 2)) = 1 := by
  constructor
  · exact C10_boolean_layer.1 3 1 2
  · have h := C10_boolean_layer.2.1 3 1 (by decide) (fun _ => 1 : Fin 3 → Fin 2)
    rw [h]
    with_unfolding_all decide
